import Mathlib

/-!
Verification of the Markdown highlighting/rendering pipeline of
`markdown_editor_pro.py` (classes `MarkdownTab` and `PreviewPanel`).

The embedding works over `List Char` (Python strings are sequences of
characters; all offsets in the source are character offsets).

Two pipelines are modelled:

* `annotate` — `MarkdownTab.highlight_syntax`: per-line block tags plus
  independent global regex passes (`re.finditer`) for bold, italic, inline
  code and links, producing possibly-overlapping `StyleSpan`s at the
  regular expression match offsets.

* `render` — `PreviewPanel.update_preview` / `PreviewPanel._render_line`:
  one `RenderBlock` per physical line; header/blockquote lines become a
  single run, other lines are scanned left to right with a cursor
  (`_render_line`), each `self.preview.insert` call becoming one
  `RenderRun` (unmatched characters are emitted one character per run).
-/

/-- Syntax categories of the rule set (spec §3 `SyntaxCategory`).
The widget tag names in the source are h1..h6, bold, italic, code, link,
list, blockquote; `image` and `codeBlock` exist in the spec's enumeration
but, as proved below, are never emitted by either pipeline. -/
inductive MDCat where
  | header1 | header2 | header3 | header4 | header5 | header6
  | bold | italic | inlineCode | codeBlock | link | image
  | listItem | blockquote | plain
deriving DecidableEq, Repr

/-- A highlight span: category plus character-offset range, as produced by
`tag_add(tag, "1.0+{start}c", "1.0+{end}c")` in `highlight_syntax`. -/
structure StyleSpan where
  category : MDCat
  startOffset : Nat
  endOffset : Nat
deriving DecidableEq, Repr

/-- One styled run of preview output: a single `self.preview.insert` call
in `update_preview` / `_render_line` (text inserted, tag applied). -/
structure RenderRun where
  text : List Char
  category : MDCat
deriving DecidableEq, Repr

/-- One preview block per physical input line (spec §3 `RenderBlock`). -/
structure RenderBlock where
  lineCategory : MDCat
  runs : List RenderRun
deriving DecidableEq, Repr

/-- The backquote character, delimiter of inline code. -/
def backquoteChar : Char := Char.ofNat 96

/-- Python `text.split(chr(10))`: split into lines at newlines; the result
is never empty and an empty text gives one empty line. -/
def splitLines : List Char → List (List Char)
  | [] => [[]]
  | c :: rest =>
    if c = '\n' then [] :: splitLines rest
    else
      match splitLines rest with
      | [] => [[c]]
      | l :: ls => (c :: l) :: ls

/-- Python slice `line[a:b]` (for `a ≤ b`; empty when `b ≤ a`). -/
def extract (line : List Char) (a b : Nat) : List Char :=
  (line.drop a).take (b - a)

/-- Python `line.find(c, i)` restricted to a suffix: index of the first
occurrence of `c`, relative to the front of the list. -/
def findFromL (c : Char) : List Char → Option Nat
  | [] => none
  | ch :: rest => if ch = c then some 0 else (findFromL c rest).map (· + 1)

/-- Python `line.find(c, i)`: absolute index of the first occurrence of
the character `c` at or after position `i`, `none` when absent. -/
def findFrom (c : Char) (line : List Char) (i : Nat) : Option Nat :=
  (findFromL c (line.drop i)).map (· + i)

/-- First index at which two adjacent copies of `c` start (suffix form). -/
def findPairFromL (c : Char) : List Char → Option Nat
  | [] => none
  | [_] => none
  | ch1 :: ch2 :: rest =>
    if ch1 = c ∧ ch2 = c then some 0
    else (findPairFromL c (ch2 :: rest)).map (· + 1)

/-- Python `line.find(cc, i)` for the two-character delimiter `cc`. -/
def findPairFrom (c : Char) (line : List Char) (i : Nat) : Option Nat :=
  (findPairFromL c (line.drop i)).map (· + i)

/-- Bold branch of `_render_line`: `line[pos:pos+2] == markers` and a
closing pair found by `line.find(markers, pos+2)`; emits the text between
the delimiter pairs and advances past the closing pair. -/
def tryBold (line : List Char) (pos : Nat) : Option (RenderRun × Nat) :=
  if pos + 1 < line.length ∧ line.getD pos ' ' = '*' ∧ line.getD (pos + 1) ' ' = '*' then
    (findPairFrom '*' line (pos + 2)).map
      (fun e => (⟨extract line (pos + 2) e, MDCat.bold⟩, e + 2))
  else none

/-- Italic branch of `_render_line`: a single `*` not preceded by `*`,
with a closing `*` (found by `line.find`) not followed by another `*`. -/
def tryItalic (line : List Char) (pos : Nat) : Option (RenderRun × Nat) :=
  if line.getD pos ' ' = '*' ∧ (pos = 0 ∨ line.getD (pos - 1) ' ' ≠ '*') then
    match findFrom '*' line (pos + 1) with
    | some e =>
      if e = line.length - 1 ∨ line.getD (e + 1) ' ' ≠ '*' then
        some (⟨extract line (pos + 1) e, MDCat.italic⟩, e + 1)
      else none
    | none => none
  else none

/-- Inline-code branch of `_render_line`: backquote pair. -/
def tryCode (line : List Char) (pos : Nat) : Option (RenderRun × Nat) :=
  if line.getD pos ' ' = backquoteChar then
    (findFrom backquoteChar line (pos + 1)).map
      (fun e => (⟨extract line (pos + 1) e, MDCat.inlineCode⟩, e + 1))
  else none

/-- Link branch of `_render_line`: `[`, first `]` (searched from `pos`),
an immediate `(`, and a closing `)`; emits only the display text and
advances past the URL and closing parenthesis. -/
def tryLink (line : List Char) (pos : Nat) : Option (RenderRun × Nat) :=
  if line.getD pos ' ' = '[' then
    match findFrom ']' line pos with
    | some t =>
      if t + 1 < line.length ∧ line.getD (t + 1) ' ' = '(' then
        (findFrom ')' line (t + 2)).map
          (fun u => (⟨extract line (pos + 1) t, MDCat.link⟩, u + 1))
      else none
    | none => none
  else none

/-- One iteration of the `while pos < len(line)` loop of `_render_line`:
the branch chain with fall-through, ending in single-character plain
emission. Returns the emitted run and the next cursor position. -/
def step (line : List Char) (pos : Nat) : RenderRun × Nat :=
  match tryBold line pos with
  | some v => v
  | none =>
    match tryItalic line pos with
    | some v => v
    | none =>
      match tryCode line pos with
      | some v => v
      | none =>
        match tryLink line pos with
        | some v => v
        | none => (⟨[line.getD pos ' '], MDCat.plain⟩, pos + 1)

/-- The cursor loop of `_render_line`, with structural fuel (each step
advances the cursor, so `line.length` fuel always suffices; see the
progress theorem below). -/
def renderLineAux (line : List Char) : Nat → Nat → List RenderRun
  | 0, _ => []
  | fuel + 1, pos =>
    if pos < line.length then
      (step line pos).1 :: renderLineAux line fuel (step line pos).2
    else []

/-- `PreviewPanel._render_line`: scan a line with a cursor, emitting one
run per insert call (an empty line emits nothing). -/
def renderLine (line : List Char) : List RenderRun :=
  renderLineAux line line.length 0

/-- The per-line branch of `PreviewPanel.update_preview`: header markers
`#` to `####` and `> ` become a single-run block; anything else is a
plain block rendered by `_render_line`. -/
def lineToBlock (line : List Char) : RenderBlock :=
  if (("# ").data).isPrefixOf line then ⟨MDCat.header1, [⟨line.drop 2, MDCat.header1⟩]⟩
  else if (("## ").data).isPrefixOf line then ⟨MDCat.header2, [⟨line.drop 3, MDCat.header2⟩]⟩
  else if (("### ").data).isPrefixOf line then ⟨MDCat.header3, [⟨line.drop 4, MDCat.header3⟩]⟩
  else if (("#### ").data).isPrefixOf line then ⟨MDCat.header4, [⟨line.drop 5, MDCat.header4⟩]⟩
  else if (("> ").data).isPrefixOf line then ⟨MDCat.blockquote, [⟨line.drop 2, MDCat.blockquote⟩]⟩
  else ⟨MDCat.plain, renderLine line⟩

/-- `PreviewPanel.update_preview`: empty text renders to nothing (early
return); otherwise one block per line of `text.split(chr(10))`. -/
def render (text : List Char) : List RenderBlock :=
  if text = [] then [] else (splitLines text).map lineToBlock

/-- Concatenation of the texts of a list of runs. -/
def joinRuns (rs : List RenderRun) : List Char :=
  (rs.map RenderRun.text).flatten

/-- Concatenation of a block's runs' text. -/
def runsText (b : RenderBlock) : List Char :=
  joinRuns b.runs

/-- The line remainder against which run coverage is measured: the line
with the leading block marker stripped in the header/blockquote branches
of `update_preview`, the whole line otherwise. -/
def stripMarker (line : List Char) : List Char :=
  if (("# ").data).isPrefixOf line then line.drop 2
  else if (("## ").data).isPrefixOf line then line.drop 3
  else if (("### ").data).isPrefixOf line then line.drop 4
  else if (("#### ").data).isPrefixOf line then line.drop 5
  else if (("> ").data).isPrefixOf line then line.drop 2
  else line

/-- Search for the closing single-character delimiter of a lazy group
`(.+?)`: first occurrence of `c`, failing on a newline (in Python regex,
`.` does not match a newline, so the group cannot expand past one). -/
def findCloseStopL (c : Char) : List Char → Option Nat
  | [] => none
  | ch :: rest =>
    if ch = c then some 0
    else if ch = '\n' then none
    else (findCloseStopL c rest).map (· + 1)

/-- Search for a closing two-character delimiter `cc` of a lazy group,
failing on a newline. -/
def findClosePairStopL (c : Char) : List Char → Option Nat
  | [] => none
  | [_] => none
  | ch1 :: ch2 :: rest =>
    if ch1 = c ∧ ch2 = c then some 0
    else if ch1 = '\n' then none
    else (findClosePairStopL c (ch2 :: rest)).map (· + 1)

/-- One attempted match of a pattern like Python `\*(.+?)\*` at position
`p` (also used for `_(.+?)_` and the backquote pattern): delimiter at
`p`, a non-empty newline-free lazy group, first closing delimiter.
Returns the end offset of the full match. -/
def matchEmph1At (c : Char) (text : List Char) (p : Nat) : Option Nat :=
  if p + 1 < text.length ∧ text.getD p ' ' = c ∧ text.getD (p + 1) ' ' ≠ '\n' then
    (findCloseStopL c (text.drop (p + 2))).map (fun u => p + 3 + u)
  else none

/-- One attempted match of a pattern like Python `\*\*(.+?)\*\*` at
position `p` (also `__(.+?)__`): double delimiter at `p`, non-empty
newline-free lazy group, first closing double delimiter. Returns the end
offset of the full match. -/
def matchEmph2At (c : Char) (text : List Char) (p : Nat) : Option Nat :=
  if p + 2 < text.length ∧ text.getD p ' ' = c ∧ text.getD (p + 1) ' ' = c
      ∧ text.getD (p + 2) ' ' ≠ '\n' then
    (findClosePairStopL c (text.drop (p + 3))).map (fun u => p + 5 + u)
  else none

/-- Inner attempt of the link pattern at a fixed `]` candidate: requires
`]('`group2`')` with a non-empty newline-free second group. -/
def tryLinkTail (ch : Char) (rest : List Char) : Option Nat :=
  if ch = ']' then
    match rest with
    | '(' :: g :: rest2 =>
      if g ≠ '\n' then (findCloseStopL ')' rest2).map (fun u => u + 4) else none
    | _ => none
  else none

/-- Backtracking search for the tail `\]\((.+?)\)` of the link pattern
over the suffix holding the first group: group one expands lazily (never
past a newline); at each `]` the rest of the pattern is attempted, and on
failure the `]` is absorbed into group one. Returns the end offset of the
match relative to the front of the suffix. -/
def searchLinkCloseL : List Char → Option Nat
  | [] => none
  | ch :: rest =>
    match tryLinkTail ch rest with
    | some off => some off
    | none => if ch = '\n' then none else (searchLinkCloseL rest).map (· + 1)

/-- One attempted match of Python `\[(.+?)\]\((.+?)\)` at position `p`.
Returns the end offset of the full match (one past the closing `)`). -/
def matchLinkAt (text : List Char) (p : Nat) : Option Nat :=
  if p + 1 < text.length ∧ text.getD p ' ' = '[' ∧ text.getD (p + 1) ' ' ≠ '\n' then
    (searchLinkCloseL (text.drop (p + 2))).map (fun off => p + 2 + off)
  else none

/-- Python `re.finditer`: leftmost non-overlapping matches, resuming after
each match end; with structural fuel (`text.length` always suffices since
every match is at least one character long). -/
def finditerAux (matchAt : List Char → Nat → Option Nat) (text : List Char) :
    Nat → Nat → List (Nat × Nat)
  | 0, _ => []
  | fuel + 1, p =>
    if p < text.length then
      match matchAt text p with
      | some e => (p, e) :: finditerAux matchAt text fuel e
      | none => finditerAux matchAt text fuel (p + 1)
    else []

/-- All matches of a pattern over the whole text, as (start, end) pairs. -/
def finditer (matchAt : List Char → Nat → Option Nat) (text : List Char) :
    List (Nat × Nat) :=
  finditerAux matchAt text text.length 0

/-- Python `\s` on the characters that can occur here (ASCII whitespace). -/
def isPySpace (c : Char) : Bool :=
  c == ' ' || c == '\t' || c == '\n' || c == '\r' || c == '\x0b' || c == '\x0c'

/-- Length of the maximal leading digit run of a line (`^\d+`). -/
def digitRun : List Char → Nat
  | [] => 0
  | c :: rest => if c.isDigit then digitRun rest + 1 else 0

/-- The two list-item tests of `highlight_syntax`:
`re.match(r'^[\*\-]\s+', line)` or `re.match(r'^\d+\.\s+', line)`. -/
def isListLine (line : List Char) : Bool :=
  (match line with
   | c1 :: c2 :: _ => ((c1 == '*') || (c1 == '-')) && isPySpace c2
   | _ => false)
  ||
  (let k := digitRun line
   decide (1 ≤ k) && (line.getD k ' ' == '.') && decide (k + 1 < line.length)
     && isPySpace (line.getD (k + 1) ' '))

/-- The per-line block classification of `highlight_syntax` (headers one
to six, blockquote, list item), in source order. -/
def lineCat (line : List Char) : Option MDCat :=
  if (("# ").data).isPrefixOf line then some MDCat.header1
  else if (("## ").data).isPrefixOf line then some MDCat.header2
  else if (("### ").data).isPrefixOf line then some MDCat.header3
  else if (("#### ").data).isPrefixOf line then some MDCat.header4
  else if (("##### ").data).isPrefixOf line then some MDCat.header5
  else if (("###### ").data).isPrefixOf line then some MDCat.header6
  else if (("> ").data).isPrefixOf line then some MDCat.blockquote
  else if isListLine line then some MDCat.listItem
  else none

/-- Per-line block spans: each classified line is covered whole, from its
start offset to its end (`tag_add(tag, f"{n}.0", f"{n}.end")`). -/
def blockSpansAux : List (List Char) → Nat → List StyleSpan
  | [], _ => []
  | line :: rest, off =>
    match lineCat line with
    | some c => ⟨c, off, off + line.length⟩ :: blockSpansAux rest (off + line.length + 1)
    | none => blockSpansAux rest (off + line.length + 1)

/-- All block-level spans of the text. -/
def blockSpans (text : List Char) : List StyleSpan :=
  blockSpansAux (splitLines text) 0

/-- Bold spans from `\*\*(.+?)\*\*`, at full-match offsets. -/
def boldStarSpans (text : List Char) : List StyleSpan :=
  (finditer (matchEmph2At '*') text).map (fun pe => ⟨MDCat.bold, pe.1, pe.2⟩)

/-- Bold spans from `__(.+?)__`, at full-match offsets. -/
def boldUnderscoreSpans (text : List Char) : List StyleSpan :=
  (finditer (matchEmph2At '_') text).map (fun pe => ⟨MDCat.bold, pe.1, pe.2⟩)

/-- The italic adjacency guard of `highlight_syntax`: the span is kept
unless the single character right before the match start equals the
marker (`content[max(0, start-1):start] == marker`). -/
def italicGuard (c : Char) (text : List Char) (s : Nat) : Bool :=
  (s == 0) || (text.getD (s - 1) ' ' != c)

/-- Italic spans from `\*(.+?)\*` with the adjacency guard. -/
def italicStarSpans (text : List Char) : List StyleSpan :=
  ((finditer (matchEmph1At '*') text).filter (fun pe => italicGuard '*' text pe.1)).map
    (fun pe => ⟨MDCat.italic, pe.1, pe.2⟩)

/-- Italic spans from `_(.+?)_` with the adjacency guard. -/
def italicUnderscoreSpans (text : List Char) : List StyleSpan :=
  ((finditer (matchEmph1At '_') text).filter (fun pe => italicGuard '_' text pe.1)).map
    (fun pe => ⟨MDCat.italic, pe.1, pe.2⟩)

/-- Inline-code spans from the backquote pattern. -/
def codeSpans (text : List Char) : List StyleSpan :=
  (finditer (matchEmph1At backquoteChar) text).map
    (fun pe => ⟨MDCat.inlineCode, pe.1, pe.2⟩)

/-- Link spans from `\[(.+?)\]\((.+?)\)`, at full-match offsets. -/
def linkSpans (text : List Char) : List StyleSpan :=
  (finditer matchLinkAt text).map (fun pe => ⟨MDCat.link, pe.1, pe.2⟩)

/-- `MarkdownTab.highlight_syntax` as a pure function: all spans the
handler applies, in application order (block tags per line, then each
inline rule as an independent global pass). -/
def annotate (text : List Char) : List StyleSpan :=
  blockSpans text ++ boldStarSpans text ++ boldUnderscoreSpans text
    ++ italicStarSpans text ++ italicUnderscoreSpans text
    ++ codeSpans text ++ linkSpans text

/-- Merge adjacent runs of equal category (the preview widget shows
adjacent same-tag inserts as one styled stretch). -/
def coalesce : List RenderRun → List RenderRun
  | [] => []
  | r :: rest =>
    match coalesce rest with
    | [] => [r]
    | r2 :: rest2 =>
      if r.category = r2.category then ⟨r.text ++ r2.text, r.category⟩ :: rest2
      else r :: r2 :: rest2

/-! Basic facts about the searching primitives. -/

theorem getD_drop_eq (l : List Char) (n i : Nat) :
    (l.drop n).getD i ' ' = l.getD (n + i) ' ' := by
  induction l generalizing n with
  | nil => simp
  | cons a t ih =>
    cases n with
    | zero => simp
    | succ m => simp [Nat.succ_add, ih m]

theorem findFromL_some {c : Char} {l : List Char} {u : Nat}
    (h : findFromL c l = some u) : u < l.length ∧ l.getD u ' ' = c := by
  induction l generalizing u with
  | nil => simp [findFromL] at h
  | cons a t ih =>
    simp only [findFromL] at h
    split at h
    · cases h
      refine ⟨Nat.succ_pos _, ?_⟩
      simp_all [List.getD]
    · rw [Option.map_eq_some'] at h
      obtain ⟨v, hv, rfl⟩ := h
      obtain ⟨h1, h2⟩ := ih hv
      exact ⟨by simpa using Nat.succ_lt_succ h1, by simpa using h2⟩

theorem findFrom_some {c : Char} {line : List Char} {i e : Nat}
    (h : findFrom c line i = some e) :
    i ≤ e ∧ e < line.length ∧ line.getD e ' ' = c := by
  unfold findFrom at h
  rw [Option.map_eq_some'] at h
  obtain ⟨u, hu, rfl⟩ := h
  obtain ⟨h1, h2⟩ := findFromL_some hu
  rw [List.length_drop] at h1
  rw [getD_drop_eq] at h2
  refine ⟨by omega, by omega, ?_⟩
  rwa [Nat.add_comm] at h2

theorem findPairFromL_some {c : Char} {l : List Char} {u : Nat}
    (h : findPairFromL c l = some u) :
    u + 1 < l.length ∧ l.getD u ' ' = c ∧ l.getD (u + 1) ' ' = c := by
  induction l generalizing u with
  | nil => simp [findPairFromL] at h
  | cons a t ih =>
    cases t with
    | nil => simp [findPairFromL] at h
    | cons b t2 =>
      simp only [findPairFromL] at h
      split at h
      · cases h
        simp_all [List.getD]
      · rw [Option.map_eq_some'] at h
        obtain ⟨v, hv, rfl⟩ := h
        obtain ⟨h1, h2, h3⟩ := ih hv
        refine ⟨by simpa using Nat.succ_lt_succ h1, by simpa using h2, by simpa using h3⟩

theorem findPairFrom_some {c : Char} {line : List Char} {i e : Nat}
    (h : findPairFrom c line i = some e) :
    i ≤ e ∧ e + 1 < line.length ∧ line.getD e ' ' = c ∧ line.getD (e + 1) ' ' = c := by
  unfold findPairFrom at h
  rw [Option.map_eq_some'] at h
  obtain ⟨u, hu, rfl⟩ := h
  obtain ⟨h1, h2, h3⟩ := findPairFromL_some hu
  rw [List.length_drop] at h1
  rw [getD_drop_eq] at h2
  have h3' : line.getD (i + (u + 1)) ' ' = c := by rw [← getD_drop_eq]; simpa using h3
  refine ⟨by omega, by omega, ?_, ?_⟩
  · rwa [Nat.add_comm] at h2
  · have : i + (u + 1) = u + i + 1 := by omega
    rwa [this] at h3'

theorem findCloseStopL_some {c : Char} {l : List Char} {u : Nat}
    (h : findCloseStopL c l = some u) : u < l.length ∧ l.getD u ' ' = c := by
  induction l generalizing u with
  | nil => simp [findCloseStopL] at h
  | cons a t ih =>
    simp only [findCloseStopL] at h
    split at h
    · cases h
      refine ⟨Nat.succ_pos _, ?_⟩
      simp_all [List.getD]
    · split at h
      · simp at h
      · rw [Option.map_eq_some'] at h
        obtain ⟨v, hv, rfl⟩ := h
        obtain ⟨h1, h2⟩ := ih hv
        exact ⟨by simpa using Nat.succ_lt_succ h1, by simpa using h2⟩

theorem findClosePairStopL_some {c : Char} {l : List Char} {u : Nat}
    (h : findClosePairStopL c l = some u) :
    u + 1 < l.length ∧ l.getD u ' ' = c ∧ l.getD (u + 1) ' ' = c := by
  induction l generalizing u with
  | nil => simp [findClosePairStopL] at h
  | cons a t ih =>
    cases t with
    | nil => simp [findClosePairStopL] at h
    | cons b t2 =>
      simp only [findClosePairStopL] at h
      split at h
      · cases h
        simp_all [List.getD]
      · split at h
        · simp at h
        · rw [Option.map_eq_some'] at h
          obtain ⟨v, hv, rfl⟩ := h
          obtain ⟨h1, h2, h3⟩ := ih hv
          exact ⟨by simpa using Nat.succ_lt_succ h1, by simpa using h2, by simpa using h3⟩

theorem tryLinkTail_some {ch : Char} {rest : List Char} {off : Nat}
    (h : tryLinkTail ch rest = some off) :
    4 ≤ off ∧ off ≤ rest.length + 1 ∧ (ch :: rest).getD (off - 1) ' ' = ')' := by
  unfold tryLinkTail at h
  split at h
  · split at h
    · split at h
      · rw [Option.map_eq_some'] at h
        obtain ⟨u, hu, rfl⟩ := h
        obtain ⟨h1, h2⟩ := findCloseStopL_some hu
        refine ⟨by omega, by simp_all; omega, ?_⟩
        have : u + 4 - 1 = u + 3 := by omega
        rw [this]
        simpa [List.getD] using h2
      · simp at h
    · simp at h
  · simp at h

theorem searchLinkCloseL_some {l : List Char} {off : Nat}
    (h : searchLinkCloseL l = some off) :
    4 ≤ off ∧ off ≤ l.length ∧ l.getD (off - 1) ' ' = ')' := by
  induction l generalizing off with
  | nil => simp [searchLinkCloseL] at h
  | cons ch rest ih =>
    rw [searchLinkCloseL] at h
    cases htt : tryLinkTail ch rest with
    | some off2 =>
      rw [htt] at h
      cases h
      obtain ⟨h4, hle, hgd⟩ := tryLinkTail_some htt
      exact ⟨h4, by simpa using hle, hgd⟩
    | none =>
      rw [htt] at h
      simp only at h
      split at h
      · simp at h
      · rw [Option.map_eq_some'] at h
        obtain ⟨v, hv, rfl⟩ := h
        obtain ⟨h4, hle, hgd⟩ := ih hv
        obtain ⟨w, rfl⟩ : ∃ w, v = w + 1 := ⟨v - 1, by omega⟩
        refine ⟨by omega, by simpa using by omega, ?_⟩
        have : w + 1 + 1 - 1 = w + 1 := by omega
        rw [this]
        simpa using hgd

/-! Facts about individual branches of the render scan. -/

theorem tryBold_some {line : List Char} {pos : Nat} {r : RenderRun} {nxt : Nat}
    (h : tryBold line pos = some (r, nxt)) :
    ∃ e, r = ⟨extract line (pos + 2) e, MDCat.bold⟩ ∧ nxt = e + 2
      ∧ pos + 2 ≤ e ∧ e + 1 < line.length := by
  unfold tryBold at h
  split at h
  · rw [Option.map_eq_some'] at h
    obtain ⟨e, he, heq⟩ := h
    obtain ⟨h1, h2, _, _⟩ := findPairFrom_some he
    cases heq
    exact ⟨e, rfl, rfl, h1, h2⟩
  · simp at h

theorem tryItalic_some {line : List Char} {pos : Nat} {r : RenderRun} {nxt : Nat}
    (h : tryItalic line pos = some (r, nxt)) :
    ∃ e, r = ⟨extract line (pos + 1) e, MDCat.italic⟩ ∧ nxt = e + 1
      ∧ pos + 1 ≤ e ∧ e < line.length := by
  unfold tryItalic at h
  split at h
  · cases hf : findFrom '*' line (pos + 1) with
    | some e =>
      rw [hf] at h
      simp only at h
      split at h
      · cases h
        obtain ⟨h1, h2, _⟩ := findFrom_some hf
        exact ⟨e, rfl, rfl, h1, h2⟩
      · simp at h
    | none => rw [hf] at h; simp at h
  · simp at h

theorem tryCode_some {line : List Char} {pos : Nat} {r : RenderRun} {nxt : Nat}
    (h : tryCode line pos = some (r, nxt)) :
    ∃ e, r = ⟨extract line (pos + 1) e, MDCat.inlineCode⟩ ∧ nxt = e + 1
      ∧ pos + 1 ≤ e ∧ e < line.length := by
  unfold tryCode at h
  split at h
  · rw [Option.map_eq_some'] at h
    obtain ⟨e, he, heq⟩ := h
    obtain ⟨h1, h2, _⟩ := findFrom_some he
    cases heq
    exact ⟨e, rfl, rfl, h1, h2⟩
  · simp at h

theorem tryLink_some {line : List Char} {pos : Nat} {r : RenderRun} {nxt : Nat}
    (h : tryLink line pos = some (r, nxt)) :
    ∃ t u, r = ⟨extract line (pos + 1) t, MDCat.link⟩ ∧ nxt = u + 1
      ∧ pos + 1 ≤ t ∧ t + 2 ≤ u ∧ u < line.length := by
  unfold tryLink at h
  split at h
  case isTrue hbr =>
    cases hf : findFrom ']' line pos with
    | some t =>
      rw [hf] at h
      simp only at h
      split at h
      · rw [Option.map_eq_some'] at h
        obtain ⟨u, hu, heq⟩ := h
        obtain ⟨h1, h2, h3⟩ := findFrom_some hf
        obtain ⟨h4, h5, _⟩ := findFrom_some hu
        cases heq
        have hne : pos ≠ t := by
          intro hpt
          rw [← hpt] at h3
          rw [hbr] at h3
          exact absurd h3 (by decide)
        exact ⟨t, u, rfl, rfl, by omega, by omega, h5⟩
      · simp at h
    | none => rw [hf] at h; simp at h
  · simp at h

theorem extract_one (line : List Char) (pos : Nat) (h : pos < line.length) :
    extract line pos (pos + 1) = [line.getD pos ' '] := by
  unfold extract
  have h1 : pos + 1 - pos = 1 := by omega
  rw [h1]
  cases hd : line.drop pos with
  | nil =>
    have : line.length ≤ pos := by
      have := congrArg List.length hd
      simp at this
      omega
    omega
  | cons x t =>
    have hx := getD_drop_eq line pos 0
    rw [hd] at hx
    simp at hx
    simp [List.take, ← hx]

/-- Full characterization of one scan step used by the coverage and
progress theorems: the emitted run text is a contiguous slice of the line
lying between the old and the new cursor position, and the cursor
strictly advances while staying within the line. -/
theorem step_spec (line : List Char) (pos : Nat) (h : pos < line.length) :
    ∃ a b, (step line pos).1.text = extract line a b
      ∧ pos ≤ a ∧ a ≤ b ∧ b ≤ (step line pos).2
      ∧ pos < (step line pos).2 ∧ (step line pos).2 ≤ line.length := by
  cases hb : tryBold line pos with
  | some v =>
    obtain ⟨r, nxt⟩ := v
    have hstep : step line pos = (r, nxt) := by simp [step, hb]
    obtain ⟨e, hr, hn, h1, h2⟩ := tryBold_some hb
    rw [hstep]
    subst hr hn
    exact ⟨pos + 2, e, rfl, by omega, by omega, by omega, by omega, by omega⟩
  | none =>
  cases hi : tryItalic line pos with
  | some v =>
    obtain ⟨r, nxt⟩ := v
    have hstep : step line pos = (r, nxt) := by simp [step, hb, hi]
    obtain ⟨e, hr, hn, h1, h2⟩ := tryItalic_some hi
    rw [hstep]
    subst hr hn
    exact ⟨pos + 1, e, rfl, by omega, by omega, by omega, by omega, by omega⟩
  | none =>
  cases hc : tryCode line pos with
  | some v =>
    obtain ⟨r, nxt⟩ := v
    have hstep : step line pos = (r, nxt) := by simp [step, hb, hi, hc]
    obtain ⟨e, hr, hn, h1, h2⟩ := tryCode_some hc
    rw [hstep]
    subst hr hn
    exact ⟨pos + 1, e, rfl, by omega, by omega, by omega, by omega, by omega⟩
  | none =>
  cases hl : tryLink line pos with
  | some v =>
    obtain ⟨r, nxt⟩ := v
    have hstep : step line pos = (r, nxt) := by simp [step, hb, hi, hc, hl]
    obtain ⟨t, u, hr, hn, h1, h2, h3⟩ := tryLink_some hl
    rw [hstep]
    subst hr hn
    exact ⟨pos + 1, t, rfl, by omega, by omega, by omega, by omega, by omega⟩
  | none =>
    have hstep : step line pos = (⟨[line.getD pos ' '], MDCat.plain⟩, pos + 1) := by
      simp [step, hb, hi, hc, hl]
    rw [hstep]
    refine ⟨pos, pos + 1, ?_, by omega, by omega, by omega, by omega, by omega⟩
    exact (extract_one line pos h).symm

theorem extract_append_drop (line : List Char) {i j : Nat} (h : i ≤ j) :
    extract line i j ++ line.drop j = line.drop i := by
  unfold extract
  have h2 : line.drop j = (line.drop i).drop (j - i) := by
    rw [List.drop_drop]
    congr 1
    omega
  rw [h2, List.take_append_drop]

/-- Concatenated run text of the scan from any position is a sublist of
the corresponding suffix of the line: characters are emitted in order,
never duplicated; only delimiter/URL characters are skipped. -/
theorem joinRuns_renderLineAux_sublist (line : List Char) :
    ∀ (fuel pos : Nat), List.Sublist (joinRuns (renderLineAux line fuel pos)) (line.drop pos) := by
  intro fuel
  induction fuel with
  | zero => intro pos; simp [renderLineAux, joinRuns]
  | succ f ih =>
    intro pos
    by_cases hlt : pos < line.length
    · rw [renderLineAux, if_pos hlt]
      obtain ⟨a, b, ht, hpa, hab, hbn, hpn, hnl⟩ := step_spec line pos hlt
      have e1 : extract line b (step line pos).2 ++ line.drop (step line pos).2 = line.drop b :=
        extract_append_drop line hbn
      have e2 : extract line a b ++ line.drop b = line.drop a := extract_append_drop line hab
      have e3 : extract line pos a ++ line.drop a = line.drop pos := extract_append_drop line hpa
      have h4 : List.Sublist (joinRuns (renderLineAux line f (step line pos).2))
          (line.drop (step line pos).2) := ih _
      have h6 : List.Sublist (joinRuns (renderLineAux line f (step line pos).2)) (line.drop b) := by
        rw [← e1]
        exact h4.trans (List.sublist_append_right _ _)
      have h7 : List.Sublist
          ((step line pos).1.text ++ joinRuns (renderLineAux line f (step line pos).2))
          (line.drop a) := by
        rw [← e2, ht]
        exact List.Sublist.append (List.Sublist.refl _) h6
      have h9 : List.Sublist
          ((step line pos).1.text ++ joinRuns (renderLineAux line f (step line pos).2))
          (line.drop pos) := by
        rw [← e3]
        exact h7.trans (List.sublist_append_right _ _)
      simpa [joinRuns] using h9
    · rw [renderLineAux, if_neg hlt]
      simp [joinRuns]

/-- Fuel invariance of the scan loop: any fuel at least the number of
remaining positions yields the same run list (the loop terminates). -/
theorem renderLineAux_fuel (line : List Char) :
    ∀ (fuel fuel' pos : Nat), line.length - pos ≤ fuel → line.length - pos ≤ fuel' →
      renderLineAux line fuel pos = renderLineAux line fuel' pos := by
  intro fuel
  induction fuel with
  | zero =>
    intro fuel' pos h h'
    have hge : ¬ pos < line.length := by omega
    cases fuel' with
    | zero => rfl
    | succ f' => rw [renderLineAux, renderLineAux, if_neg hge]
  | succ f ih =>
    intro fuel' pos h h'
    cases fuel' with
    | zero =>
      have hge : ¬ pos < line.length := by omega
      rw [renderLineAux, renderLineAux, if_neg hge]
    | succ f' =>
      by_cases hlt : pos < line.length
      · rw [renderLineAux, renderLineAux, if_pos hlt, if_pos hlt]
        obtain ⟨a, b, _, _, _, _, hpn, _⟩ := step_spec line pos hlt
        rw [ih f' (step line pos).2 (by omega) (by omega)]
      · rw [renderLineAux, renderLineAux, if_neg hlt, if_neg hlt]

/-- Coverage of a whole rendered block: its run text is a sublist of the
line with the block marker stripped (equality in the header/blockquote
branches, where the single run is exactly the remainder). -/
theorem lineToBlock_sublist (line : List Char) :
    List.Sublist (runsText (lineToBlock line)) (stripMarker line) := by
  unfold lineToBlock stripMarker
  by_cases h1 : (("# ").data).isPrefixOf line
  · simp [h1, runsText, joinRuns]
  by_cases h2 : (("## ").data).isPrefixOf line
  · simp [h1, h2, runsText, joinRuns]
  by_cases h3 : (("### ").data).isPrefixOf line
  · simp [h1, h2, h3, runsText, joinRuns]
  by_cases h4 : (("#### ").data).isPrefixOf line
  · simp [h1, h2, h3, h4, runsText, joinRuns]
  by_cases h5 : (("> ").data).isPrefixOf line
  · simp [h1, h2, h3, h4, h5, runsText, joinRuns]
  · simp only [h1, h2, h3, h4, h5, Bool.false_eq_true, if_false]
    have := joinRuns_renderLineAux_sublist line line.length 0
    simpa [runsText, renderLine] using this

/-- Every block produced by `render` is the block of one of the lines of
the split text. -/
theorem render_mem {text : List Char} {b : RenderBlock} (h : b ∈ render text) :
    ∃ line, line ∈ splitLines text ∧ b = lineToBlock line := by
  unfold render at h
  split at h
  · simp at h
  · obtain ⟨line, hl, hb⟩ := List.mem_map.mp h
    exact ⟨line, hl, hb.symm⟩

/-! Category facts. -/

theorem lineToBlock_cat (line : List Char) :
    (lineToBlock line).lineCategory ∈
      [MDCat.header1, MDCat.header2, MDCat.header3, MDCat.header4, MDCat.header5,
       MDCat.header6, MDCat.blockquote, MDCat.plain] := by
  unfold lineToBlock
  repeat' split
  all_goals simp

theorem step_cat (line : List Char) (pos : Nat) :
    (step line pos).1.category = MDCat.bold ∨ (step line pos).1.category = MDCat.italic
      ∨ (step line pos).1.category = MDCat.inlineCode
      ∨ (step line pos).1.category = MDCat.link
      ∨ (step line pos).1.category = MDCat.plain := by
  cases hb : tryBold line pos with
  | some v =>
    obtain ⟨r, nxt⟩ := v
    have hstep : step line pos = (r, nxt) := by simp [step, hb]
    obtain ⟨e, hr, -⟩ := tryBold_some hb
    rw [hstep, hr]
    simp
  | none =>
  cases hi : tryItalic line pos with
  | some v =>
    obtain ⟨r, nxt⟩ := v
    have hstep : step line pos = (r, nxt) := by simp [step, hb, hi]
    obtain ⟨e, hr, -⟩ := tryItalic_some hi
    rw [hstep, hr]
    simp
  | none =>
  cases hc : tryCode line pos with
  | some v =>
    obtain ⟨r, nxt⟩ := v
    have hstep : step line pos = (r, nxt) := by simp [step, hb, hi, hc]
    obtain ⟨e, hr, -⟩ := tryCode_some hc
    rw [hstep, hr]
    simp
  | none =>
  cases hl : tryLink line pos with
  | some v =>
    obtain ⟨r, nxt⟩ := v
    have hstep : step line pos = (r, nxt) := by simp [step, hb, hi, hc, hl]
    obtain ⟨t, u, hr, -⟩ := tryLink_some hl
    rw [hstep, hr]
    simp
  | none =>
    have hstep : step line pos = (⟨[line.getD pos ' '], MDCat.plain⟩, pos + 1) := by
      simp [step, hb, hi, hc, hl]
    rw [hstep]
    simp

theorem renderLineAux_cat (line : List Char) :
    ∀ (fuel pos : Nat) (r : RenderRun), r ∈ renderLineAux line fuel pos →
      r.category = MDCat.bold ∨ r.category = MDCat.italic
        ∨ r.category = MDCat.inlineCode ∨ r.category = MDCat.link
        ∨ r.category = MDCat.plain := by
  intro fuel
  induction fuel with
  | zero => intro pos r h; simp [renderLineAux] at h
  | succ f ih =>
    intro pos r h
    rw [renderLineAux] at h
    split at h
    · rcases List.mem_cons.mp h with rfl | h2
      · exact step_cat line pos
      · exact ih _ r h2
    · simp at h

theorem lineToBlock_runs_cat (line : List Char) (r : RenderRun)
    (h : r ∈ (lineToBlock line).runs) :
    r.category ≠ MDCat.image ∧ r.category ≠ MDCat.codeBlock := by
  unfold lineToBlock at h
  repeat' split at h
  all_goals first
    | (simp at h; subst h; simp)
    | (rcases renderLineAux_cat line _ _ r h with hc | hc | hc | hc | hc <;> simp [hc])

/-! Facts about the regex-pass primitives of the annotator. -/

theorem finditerAux_mem {m : List Char → Nat → Option Nat} {text : List Char} :
    ∀ {fuel p : Nat} {pe : Nat × Nat}, pe ∈ finditerAux m text fuel p →
      m text pe.1 = some pe.2 := by
  intro fuel
  induction fuel with
  | zero => intro p pe h; simp [finditerAux] at h
  | succ f ih =>
    intro p pe h
    rw [finditerAux] at h
    split at h
    · cases hm : m text p with
      | some e =>
        rw [hm] at h
        simp only at h
        rcases List.mem_cons.mp h with rfl | h2
        · simpa using hm
        · exact ih h2
      | none =>
        rw [hm] at h
        simp only at h
        exact ih h
    · simp at h

theorem finditerAux_mem_intro {m : List Char → Nat → Option Nat} {text : List Char} :
    ∀ (fuel p q e : Nat), p ≤ q → q < p + fuel → q < text.length → m text q = some e →
      (∀ r, p ≤ r → r < q → m text r = none) →
      (q, e) ∈ finditerAux m text fuel p := by
  intro fuel
  induction fuel with
  | zero => intro p q e h1 h2 _ _ _; omega
  | succ f ih =>
    intro p q e h1 h2 h3 h4 h5
    rw [finditerAux]
    rw [if_pos (by omega)]
    rcases Nat.eq_or_lt_of_le h1 with rfl | hlt
    · rw [h4]
      simp
    · rw [h5 p (by omega) hlt]
      simp only
      exact ih (p + 1) q e (by omega) (by omega) h3 h4 (fun r hr1 hr2 => h5 r (by omega) hr2)

theorem matchEmph1At_some {c : Char} {text : List Char} {p e : Nat}
    (h : matchEmph1At c text p = some e) :
    text.getD p ' ' = c ∧ text.getD (e - 1) ' ' = c ∧ p + 3 ≤ e ∧ e ≤ text.length := by
  unfold matchEmph1At at h
  split at h
  case isTrue hg =>
    rw [Option.map_eq_some'] at h
    obtain ⟨u, hu, rfl⟩ := h
    obtain ⟨h1, h2⟩ := findCloseStopL_some hu
    rw [List.length_drop] at h1
    rw [getD_drop_eq] at h2
    have he : p + 3 + u - 1 = p + 2 + u := by omega
    rw [he]
    exact ⟨hg.2.1, h2, by omega, by omega⟩
  · simp at h

theorem matchEmph2At_some {c : Char} {text : List Char} {p e : Nat}
    (h : matchEmph2At c text p = some e) :
    text.getD p ' ' = c ∧ text.getD (p + 1) ' ' = c
      ∧ text.getD (e - 2) ' ' = c ∧ text.getD (e - 1) ' ' = c
      ∧ p + 5 ≤ e ∧ e ≤ text.length := by
  unfold matchEmph2At at h
  split at h
  case isTrue hg =>
    rw [Option.map_eq_some'] at h
    obtain ⟨u, hu, rfl⟩ := h
    obtain ⟨h1, h2, h3⟩ := findClosePairStopL_some hu
    rw [List.length_drop] at h1
    rw [getD_drop_eq] at h2
    rw [getD_drop_eq] at h3
    have he2 : p + 5 + u - 2 = p + 3 + u := by omega
    have he1 : p + 5 + u - 1 = p + 3 + (u + 1) := by omega
    rw [he2, he1]
    exact ⟨hg.2.1, hg.2.2.1, h2, h3, by omega, by omega⟩
  · simp at h

theorem matchLinkAt_some {text : List Char} {p e : Nat}
    (h : matchLinkAt text p = some e) :
    text.getD p ' ' = '[' ∧ text.getD (e - 1) ' ' = ')' ∧ p + 6 ≤ e ∧ e ≤ text.length := by
  unfold matchLinkAt at h
  split at h
  case isTrue hg =>
    rw [Option.map_eq_some'] at h
    obtain ⟨off, hoff, rfl⟩ := h
    obtain ⟨h4, hle, hgd⟩ := searchLinkCloseL_some hoff
    rw [List.length_drop] at hle
    rw [getD_drop_eq] at hgd
    have he : p + 2 + off - 1 = p + 2 + (off - 1) := by omega
    rw [he]
    exact ⟨hg.2.1, hgd, by omega, by omega⟩
  · simp at h

theorem lineCat_mem {line : List Char} {c : MDCat} (h : lineCat line = some c) :
    c ∈ [MDCat.header1, MDCat.header2, MDCat.header3, MDCat.header4, MDCat.header5,
         MDCat.header6, MDCat.blockquote, MDCat.listItem] := by
  unfold lineCat at h
  repeat' split at h
  all_goals simp_all

theorem blockSpansAux_cat :
    ∀ (lines : List (List Char)) (off : Nat) (s : StyleSpan),
      s ∈ blockSpansAux lines off →
      s.category ∈ [MDCat.header1, MDCat.header2, MDCat.header3, MDCat.header4,
        MDCat.header5, MDCat.header6, MDCat.blockquote, MDCat.listItem] := by
  intro lines
  induction lines with
  | nil => intro off s h; simp [blockSpansAux] at h
  | cons line rest ih =>
    intro off s h
    rw [blockSpansAux] at h
    cases hc : lineCat line with
    | some c =>
      rw [hc] at h
      simp only at h
      rcases List.mem_cons.mp h with rfl | h2
      · exact lineCat_mem hc
      · exact ih _ s h2
    | none =>
      rw [hc] at h
      simp only at h
      exact ih _ s h

theorem blockSpans_cat {text : List Char} {s : StyleSpan} (h : s ∈ blockSpans text) :
    s.category ∈ [MDCat.header1, MDCat.header2, MDCat.header3, MDCat.header4,
      MDCat.header5, MDCat.header6, MDCat.blockquote, MDCat.listItem] :=
  blockSpansAux_cat _ _ _ h

theorem annotate_cases {text : List Char} {s : StyleSpan} (h : s ∈ annotate text) :
    s ∈ blockSpans text ∨ s ∈ boldStarSpans text ∨ s ∈ boldUnderscoreSpans text
      ∨ s ∈ italicStarSpans text ∨ s ∈ italicUnderscoreSpans text
      ∨ s ∈ codeSpans text ∨ s ∈ linkSpans text := by
  simpa [annotate, List.mem_append, or_assoc] using h

/-- Both delimiter characters of a double-delimiter span lie inside it. -/
def delim2At (text : List Char) (s e : Nat) (c : Char) : Prop :=
  text.getD s ' ' = c ∧ text.getD (s + 1) ' ' = c
    ∧ text.getD (e - 2) ' ' = c ∧ text.getD (e - 1) ' ' = c

/-- Both delimiter characters of a single-delimiter span lie inside it. -/
def delim1At (text : List Char) (s e : Nat) (c : Char) : Prop :=
  text.getD s ' ' = c ∧ text.getD (e - 1) ' ' = c

instance (text : List Char) (s e : Nat) (c : Char) : Decidable (delim2At text s e c) := by
  unfold delim2At; infer_instance

instance (text : List Char) (s e : Nat) (c : Char) : Decidable (delim1At text s e c) := by
  unfold delim1At; infer_instance

theorem finditer_mem {m : List Char → Nat → Option Nat} {text : List Char} {pe : Nat × Nat}
    (h : pe ∈ finditer m text) : m text pe.1 = some pe.2 :=
  finditerAux_mem h

/-! Claim theorems. -/

/-- C9: on the empty input, `annotate` returns the empty span list and
`render` returns the empty block sequence; both are total functions, so
neither call is an error. -/
theorem C9_empty_input :
    annotate (("").data) = [] ∧ render (("").data) = [] := by decide

/-- C1 counterexample: for the input `**b**` the sole block's run text is
`b`, which is not the line with its (absent) block marker stripped — the
bold delimiters are dropped from the runs' text. -/
theorem C1_counterexample :
    (render (("**b**").data)).map runsText = [("b").data]
      ∧ stripMarker (("**b**").data) = ("**b**").data
      ∧ ("b").data ≠ ("**b**").data := by decide

/-- C1 amended: for every block of `render text`, the concatenation of the
block's runs' text is a sublist of the corresponding line with its block
marker stripped — characters are kept in order and never duplicated, but
matched inline delimiter characters and link URLs are dropped rather than
included (for header/blockquote blocks the single run equals the
remainder exactly). -/
theorem C1_render_coverage_amended :
    ∀ (text : List Char) (b : RenderBlock), b ∈ render text →
      ∃ line, line ∈ splitLines text ∧ b = lineToBlock line
        ∧ List.Sublist (runsText b) (stripMarker line) := by
  intro text b h
  obtain ⟨line, hl, rfl⟩ := render_mem h
  exact ⟨line, hl, rfl, lineToBlock_sublist line⟩

/-- Witness for C1 amended at the concrete input `**b**`. -/
theorem C1_render_coverage_amended_witness :
    ∃ line, line ∈ splitLines (("**b**").data)
      ∧ (⟨MDCat.plain, [⟨("b").data, MDCat.bold⟩]⟩ : RenderBlock) = lineToBlock line
      ∧ List.Sublist (runsText ⟨MDCat.plain, [⟨("b").data, MDCat.bold⟩]⟩)
          (stripMarker line) :=
  C1_render_coverage_amended (("**b**").data)
    ⟨MDCat.plain, [⟨("b").data, MDCat.bold⟩]⟩ (by decide)

/-- C2 counterexample: a line starting with the five-`#` header marker is
rendered as a plain block, not as a Header5 block — `update_preview` only
handles `#` through `####`. -/
theorem C2_counterexample :
    (render (("##### five").data)).map RenderBlock.lineCategory = [MDCat.plain]
      ∧ MDCat.plain ≠ MDCat.header5 := by decide

/-- C2 amended: lines starting with `#` to `####` (exact count followed by
a space) become a single-run header block of the matching level with the
marker stripped and no inline processing; lines starting with `#####` or
`######` markers are not headers in the render pass and fall through to
the plain-line branch. -/
theorem C2_headers_amended : ∀ (line : List Char),
    ((("# ").data).isPrefixOf line = true →
        lineToBlock line = ⟨MDCat.header1, [⟨line.drop 2, MDCat.header1⟩]⟩)
  ∧ ((("## ").data).isPrefixOf line = true →
        lineToBlock line = ⟨MDCat.header2, [⟨line.drop 3, MDCat.header2⟩]⟩)
  ∧ ((("### ").data).isPrefixOf line = true →
        lineToBlock line = ⟨MDCat.header3, [⟨line.drop 4, MDCat.header3⟩]⟩)
  ∧ ((("#### ").data).isPrefixOf line = true →
        lineToBlock line = ⟨MDCat.header4, [⟨line.drop 5, MDCat.header4⟩]⟩)
  ∧ ((("##### ").data).isPrefixOf line = true →
        (lineToBlock line).lineCategory = MDCat.plain)
  ∧ ((("###### ").data).isPrefixOf line = true →
        (lineToBlock line).lineCategory = MDCat.plain) := by
  intro line
  have e1 : ("# ").data = ['#', ' '] := rfl
  have e2 : ("## ").data = ['#', '#', ' '] := rfl
  have e3 : ("### ").data = ['#', '#', '#', ' '] := rfl
  have e4 : ("#### ").data = ['#', '#', '#', '#', ' '] := rfl
  have e5 : ("##### ").data = ['#', '#', '#', '#', '#', ' '] := rfl
  have e6 : ("###### ").data = ['#', '#', '#', '#', '#', '#', ' '] := rfl
  have e7 : ("> ").data = ['>', ' '] := rfl
  refine ⟨?_, ?_, ?_, ?_, ?_, ?_⟩ <;> intro h <;>
    rw [List.isPrefixOf_iff_prefix] at h <;> obtain ⟨t, rfl⟩ := h <;>
    simp [lineToBlock, List.isPrefixOf, e1, e2, e3, e4, e5, e6, e7]

/-- Witness for C2 amended at the concrete input `# Hello`. -/
theorem C2_headers_amended_witness :
    lineToBlock (("# Hello").data)
      = ⟨MDCat.header1, [⟨(("# Hello").data).drop 2, MDCat.header1⟩]⟩ :=
  (C2_headers_amended (("# Hello").data)).1 (by decide)

/-- C6 counterexample: the run sequence of the scenario-B render is not
the five-run sequence of the claim — plain characters are emitted one
character per run by `_render_line`. -/
theorem C6_counterexample :
    render (("This is **bold** and *italic*.").data)
      ≠ [⟨MDCat.plain,
          [⟨("This is ").data, MDCat.plain⟩, ⟨("bold").data, MDCat.bold⟩,
           ⟨(" and ").data, MDCat.plain⟩, ⟨("italic").data, MDCat.italic⟩,
           ⟨(".").data, MDCat.plain⟩]⟩] := by decide

/-- C6 amended: rendering `This is **bold** and *italic*.` produces one
Plain block whose runs, after merging adjacent runs of the same category,
are Plain `This is `, Bold `bold`, Plain ` and `, Italic `italic`,
Plain `.`. -/
theorem C6_scenarioB_amended :
    (render (("This is **bold** and *italic*.").data)).map
        (fun b => RenderBlock.mk b.lineCategory (coalesce b.runs))
      = [⟨MDCat.plain,
          [⟨("This is ").data, MDCat.plain⟩, ⟨("bold").data, MDCat.bold⟩,
           ⟨(" and ").data, MDCat.plain⟩, ⟨("italic").data, MDCat.italic⟩,
           ⟨(".").data, MDCat.plain⟩]⟩] := by decide

/-- C4 counterexample: an image construct renders as a plain `!` run
followed by a Link run of the alt text (no Image-category output), and a
fenced input yields inline-code runs (no CodeBlock-category output). -/
theorem C4_counterexample :
    (render (("![a](b)").data)).map (fun b => b.runs.map RenderRun.category)
        = [[MDCat.plain, MDCat.link]]
      ∧ (render (("```x```").data)).map (fun b => b.runs.map RenderRun.category)
        = [[MDCat.inlineCode, MDCat.inlineCode, MDCat.inlineCode]] := by decide

/-- C4 amended: neither the image rule nor the fenced-code-block rule is
implemented by either pipeline: no span of `annotate` and no block or
run of `render` ever carries the Image or CodeBlock category. -/
theorem C4_no_image_or_codeblock_amended : ∀ (text : List Char),
    (∀ s ∈ annotate text, s.category ≠ MDCat.image ∧ s.category ≠ MDCat.codeBlock)
  ∧ (∀ b ∈ render text, b.lineCategory ≠ MDCat.image ∧ b.lineCategory ≠ MDCat.codeBlock
      ∧ ∀ r ∈ b.runs, r.category ≠ MDCat.image ∧ r.category ≠ MDCat.codeBlock) := by
  intro text
  constructor
  · intro s hs
    rcases annotate_cases hs with h | h | h | h | h | h | h
    · have hc := blockSpans_cat h
      simp only [List.mem_cons, List.not_mem_nil, or_false] at hc
      rcases hc with hc | hc | hc | hc | hc | hc | hc | hc <;> simp [hc]
    · obtain ⟨pe, -, rfl⟩ := List.mem_map.mp h
      simp
    · obtain ⟨pe, -, rfl⟩ := List.mem_map.mp h
      simp
    · obtain ⟨pe, -, rfl⟩ := List.mem_map.mp h
      simp
    · obtain ⟨pe, -, rfl⟩ := List.mem_map.mp h
      simp
    · obtain ⟨pe, -, rfl⟩ := List.mem_map.mp h
      simp
    · obtain ⟨pe, -, rfl⟩ := List.mem_map.mp h
      simp
  · intro b hb
    obtain ⟨line, -, rfl⟩ := render_mem hb
    have hc := lineToBlock_cat line
    simp only [List.mem_cons, List.not_mem_nil, or_false] at hc
    refine ⟨?_, ?_, fun r hr => lineToBlock_runs_cat line r hr⟩ <;>
      rcases hc with hc | hc | hc | hc | hc | hc | hc | hc <;> simp [hc]

/-- Witness for C4 amended at the concrete input of the image construct. -/
theorem C4_no_image_or_codeblock_amended_witness :
    (⟨MDCat.plain, [⟨("!").data, MDCat.plain⟩, ⟨("a").data, MDCat.link⟩]⟩
        : RenderBlock).lineCategory ≠ MDCat.image
      ∧ (⟨MDCat.plain, [⟨("!").data, MDCat.plain⟩, ⟨("a").data, MDCat.link⟩]⟩
          : RenderBlock).lineCategory ≠ MDCat.codeBlock
      ∧ ∀ r ∈ (⟨MDCat.plain, [⟨("!").data, MDCat.plain⟩, ⟨("a").data, MDCat.link⟩]⟩
          : RenderBlock).runs, r.category ≠ MDCat.image ∧ r.category ≠ MDCat.codeBlock :=
  (C4_no_image_or_codeblock_amended (("![a](b)").data)).2
    ⟨MDCat.plain, [⟨("!").data, MDCat.plain⟩, ⟨("a").data, MDCat.link⟩]⟩ (by decide)

/-- C3 counterexample: for `**b**` the bold span is (0,5), the offsets of
the full match including the delimiters, not the inner-group offsets
(2,3); for `[a](b)` the link span is (0,6), covering the whole construct
including the URL, not just the display text (1,2). -/
theorem C3_counterexample :
    annotate (("**b**").data) = [⟨MDCat.bold, 0, 5⟩, ⟨MDCat.italic, 0, 4⟩]
      ∧ (⟨MDCat.bold, 2, 3⟩ : StyleSpan) ∉ annotate (("**b**").data)
      ∧ annotate (("[a](b)").data) = [⟨MDCat.link, 0, 6⟩]
      ∧ (⟨MDCat.link, 1, 2⟩ : StyleSpan) ∉ annotate (("[a](b)").data) := by decide

/-- C3 amended: every inline span of `annotate` is emitted at the offsets
of the full regex match: the delimiter characters themselves lie inside
bold/italic/inline-code spans, and a link span starts at its `[` and ends
just after its `)` — so the URL lies inside the span rather than being
left unstyled. -/
theorem C3_full_match_offsets_amended :
    ∀ (text : List Char) (s : StyleSpan), s ∈ annotate text →
      (s.category = MDCat.bold →
          delim2At text s.startOffset s.endOffset '*'
            ∨ delim2At text s.startOffset s.endOffset '_')
    ∧ (s.category = MDCat.italic →
          delim1At text s.startOffset s.endOffset '*'
            ∨ delim1At text s.startOffset s.endOffset '_')
    ∧ (s.category = MDCat.inlineCode → delim1At text s.startOffset s.endOffset backquoteChar)
    ∧ (s.category = MDCat.link →
          text.getD s.startOffset ' ' = '[' ∧ text.getD (s.endOffset - 1) ' ' = ')') := by
  intro text s hs
  rcases annotate_cases hs with h | h | h | h | h | h | h
  · have hc := blockSpans_cat h
    simp only [List.mem_cons, List.not_mem_nil, or_false] at hc
    refine ⟨?_, ?_, ?_, ?_⟩ <;> intro hcat <;>
      rcases hc with hc | hc | hc | hc | hc | hc | hc | hc <;> simp_all
  · obtain ⟨pe, hpe, rfl⟩ := List.mem_map.mp h
    obtain ⟨h1, h2, h3, h4, -, -⟩ := matchEmph2At_some (finditer_mem hpe)
    exact ⟨fun _ => Or.inl ⟨h1, h2, h3, h4⟩, fun hcat => by simp at hcat,
      fun hcat => by simp at hcat, fun hcat => by simp at hcat⟩
  · obtain ⟨pe, hpe, rfl⟩ := List.mem_map.mp h
    obtain ⟨h1, h2, h3, h4, -, -⟩ := matchEmph2At_some (finditer_mem hpe)
    exact ⟨fun _ => Or.inr ⟨h1, h2, h3, h4⟩, fun hcat => by simp at hcat,
      fun hcat => by simp at hcat, fun hcat => by simp at hcat⟩
  · obtain ⟨pe, hpe, rfl⟩ := List.mem_map.mp h
    obtain ⟨hfind, -⟩ := List.mem_filter.mp hpe
    obtain ⟨h1, h2, -, -⟩ := matchEmph1At_some (finditer_mem hfind)
    exact ⟨fun hcat => by simp at hcat, fun _ => Or.inl ⟨h1, h2⟩,
      fun hcat => by simp at hcat, fun hcat => by simp at hcat⟩
  · obtain ⟨pe, hpe, rfl⟩ := List.mem_map.mp h
    obtain ⟨hfind, -⟩ := List.mem_filter.mp hpe
    obtain ⟨h1, h2, -, -⟩ := matchEmph1At_some (finditer_mem hfind)
    exact ⟨fun hcat => by simp at hcat, fun _ => Or.inr ⟨h1, h2⟩,
      fun hcat => by simp at hcat, fun hcat => by simp at hcat⟩
  · obtain ⟨pe, hpe, rfl⟩ := List.mem_map.mp h
    obtain ⟨h1, h2, -, -⟩ := matchEmph1At_some (finditer_mem hpe)
    exact ⟨fun hcat => by simp at hcat, fun hcat => by simp at hcat,
      fun _ => ⟨h1, h2⟩, fun hcat => by simp at hcat⟩
  · obtain ⟨pe, hpe, rfl⟩ := List.mem_map.mp h
    obtain ⟨h1, h2, -, -⟩ := matchLinkAt_some (finditer_mem hpe)
    exact ⟨fun hcat => by simp at hcat, fun hcat => by simp at hcat,
      fun hcat => by simp at hcat, fun _ => ⟨h1, h2⟩⟩

/-- Witness for C3 amended at the bold span of `**b**`. -/
theorem C3_full_match_offsets_amended_witness :
    delim2At (("**b**").data) 0 5 '*' ∨ delim2At (("**b**").data) 0 5 '_' :=
  (C3_full_match_offsets_amended (("**b**").data) ⟨MDCat.bold, 0, 5⟩ (by decide)).1 rfl

/-- C7: for non-empty text, `render` emits exactly one block per physical
line (the map of the per-line function over the split), every block's
line category lies in the allowed set, and the empty line yields a Plain
block with an empty run sequence. -/
theorem C7_one_block_per_line : ∀ (text : List Char), text ≠ [] →
    render text = (splitLines text).map lineToBlock
      ∧ (∀ b ∈ render text, b.lineCategory ∈
          [MDCat.header1, MDCat.header2, MDCat.header3, MDCat.header4, MDCat.header5,
           MDCat.header6, MDCat.blockquote, MDCat.plain])
      ∧ lineToBlock ([] : List Char) = ⟨MDCat.plain, []⟩ := by
  intro text htext
  refine ⟨by unfold render; rw [if_neg htext], ?_, by decide⟩
  intro b hb
  obtain ⟨line, -, rfl⟩ := render_mem hb
  exact lineToBlock_cat line

/-- Witness for C7 at the concrete input `a`, empty line, `b`. -/
theorem C7_one_block_per_line_witness :
    render (("a\n\nb").data) = (splitLines (("a\n\nb").data)).map lineToBlock
      ∧ (∀ b ∈ render (("a\n\nb").data), b.lineCategory ∈
          [MDCat.header1, MDCat.header2, MDCat.header3, MDCat.header4, MDCat.header5,
           MDCat.header6, MDCat.blockquote, MDCat.plain])
      ∧ lineToBlock ([] : List Char) = ⟨MDCat.plain, []⟩ :=
  C7_one_block_per_line (("a\n\nb").data) (by decide)

/-- C8: the render scan never fails and terminates with full coverage: at
every in-bounds cursor position the step strictly advances the cursor and
stays within the line, and any fuel of at least the line length computes
the same (complete) run list as `renderLine`. -/
theorem C8_scan_progress_and_termination :
    ∀ (line : List Char) (pos fuel : Nat), pos < line.length → line.length ≤ fuel →
      (pos < (step line pos).2 ∧ (step line pos).2 ≤ line.length)
        ∧ renderLineAux line fuel 0 = renderLine line := by
  intro line pos fuel h hf
  obtain ⟨a, b, -, -, -, -, hpn, hnl⟩ := step_spec line pos h
  exact ⟨⟨hpn, hnl⟩, renderLineAux_fuel line fuel line.length 0 (by omega) (by omega)⟩

/-- Witness for C8 at the concrete line `*a*`, position 0, fuel 5. -/
theorem C8_scan_progress_and_termination_witness :
    (0 < (step (("*a*").data) 0).2 ∧ (step (("*a*").data) 0).2 ≤ (("*a*").data).length)
      ∧ renderLineAux (("*a*").data) 5 0 = renderLine (("*a*").data) :=
  C8_scan_progress_and_termination (("*a*").data) 0 5 (by decide) (by decide)

/-- An image construct `«!»[alt](url)` as a character list. -/
def imageText (alt url : List Char) : List Char :=
  '!' :: '[' :: (alt ++ ']' :: '(' :: (url ++ [')']))

theorem searchLinkCloseL_skip {l : List Char}
    (hl : ∀ c ∈ l, c ≠ ']' ∧ c ≠ '\n') (s : List Char) :
    searchLinkCloseL (l ++ s) = (searchLinkCloseL s).map (· + l.length) := by
  induction l with
  | nil => cases h : searchLinkCloseL s <;> simp [h]
  | cons ch t ih =>
    have hch := hl ch (by simp)
    have ht : ∀ c ∈ t, c ≠ ']' ∧ c ≠ '\n' := fun c hc => hl c (by simp [hc])
    have htt : tryLinkTail ch (t ++ s) = none := by
      unfold tryLinkTail
      rw [if_neg hch.1]
    rw [List.cons_append, searchLinkCloseL, htt]
    simp only
    rw [if_neg hch.2, ih ht]
    cases h : searchLinkCloseL s with
    | none => simp [h]
    | some v => simp [h]; omega

theorem findCloseStopL_clean {l : List Char} (hl : ∀ c ∈ l, c ≠ ')' ∧ c ≠ '\n') :
    findCloseStopL ')' (l ++ [')']) = some l.length := by
  induction l with
  | nil => simp [findCloseStopL]
  | cons ch t ih =>
    have hch := hl ch (by simp)
    have ht : ∀ c ∈ t, c ≠ ')' ∧ c ≠ '\n' := fun c hc => hl c (by simp [hc])
    rw [List.cons_append, findCloseStopL, if_neg hch.1, if_neg hch.2, ih ht]
    simp

theorem matchLinkAt_imageText (a : Char) (alt2 : List Char) (b : Char) (url2 : List Char)
    (halt : ∀ c ∈ a :: alt2, c ≠ ']' ∧ c ≠ '\n')
    (hurl : ∀ c ∈ b :: url2, c ≠ ')' ∧ c ≠ '\n') :
    matchLinkAt (imageText (a :: alt2) (b :: url2)) 1
      = some (imageText (a :: alt2) (b :: url2)).length := by
  have ha := halt a (by simp)
  have halt2 : ∀ c ∈ alt2, c ≠ ']' ∧ c ≠ '\n' := fun c hc => halt c (by simp [hc])
  have hb := hurl b (by simp)
  have hurl2 : ∀ c ∈ url2, c ≠ ')' ∧ c ≠ '\n' := fun c hc => hurl c (by simp [hc])
  have hlen : (imageText (a :: alt2) (b :: url2)).length
      = alt2.length + url2.length + 7 := by
    simp [imageText]
    omega
  have hdrop : (imageText (a :: alt2) (b :: url2)).drop 3
      = alt2 ++ (']' :: '(' :: (b :: url2 ++ [')'])) := by
    simp [imageText]
  have hinner : searchLinkCloseL (']' :: '(' :: (b :: url2 ++ [')'])) = some (url2.length + 4) := by
    rw [searchLinkCloseL]
    have htail : tryLinkTail ']' ('(' :: (b :: url2 ++ [')'])) = some (url2.length + 4) := by
      unfold tryLinkTail
      rw [if_pos rfl]
      simp only [List.cons_append]
      rw [if_pos hb.2, findCloseStopL_clean hurl2]
      rfl
    rw [htail]
  have hsearch : searchLinkCloseL ((imageText (a :: alt2) (b :: url2)).drop 3)
      = some (url2.length + 4 + alt2.length) := by
    rw [hdrop, searchLinkCloseL_skip halt2, hinner]
    rfl
  unfold matchLinkAt
  rw [if_pos]
  · have hd3 : (imageText (a :: alt2) (b :: url2)).drop (1 + 2)
        = (imageText (a :: alt2) (b :: url2)).drop 3 := rfl
    rw [hd3, hsearch]
    simp only [Option.map_some']
    congr 1
    omega
  · refine ⟨by omega, rfl, ?_⟩
    show (imageText (a :: alt2) (b :: url2)).getD 2 ' ' ≠ '\n'
    simpa [imageText] using ha.2

/-- C10 counterexample: in `[a «!»[b](c)` the backtracking link pattern
matches from the first `[`, so the only Link span is (0,10); it contains
the `!` at offset 3, and no span covering just the `[b](c)` portion
(4,10) is emitted. -/
theorem C10_counterexample :
    (annotate (("[a ![b](c)").data)).filter (fun s => s.category == MDCat.link)
        = [⟨MDCat.link, 0, 10⟩]
      ∧ (⟨MDCat.link, 4, 10⟩ : StyleSpan) ∉ annotate (("[a ![b](c)").data) := by decide

/-- C10 amended: when the text is exactly an image construct
`«!»[alt](url)` whose alt holds no `]` or newline and whose url holds no
`)` or newline, the link pattern matches inside the image syntax and
`annotate` emits a Link span from the `[` (offset 1, the leading `!`
excluded) to the end of the construct; in general an earlier unmatched
`[` can widen the match so that the `!` lands inside the span. -/
theorem C10_link_inside_image_amended :
    ∀ (alt url : List Char), alt ≠ [] → url ≠ [] →
      (∀ c ∈ alt, c ≠ ']' ∧ c ≠ '\n') → (∀ c ∈ url, c ≠ ')' ∧ c ≠ '\n') →
      (⟨MDCat.link, 1, (imageText alt url).length⟩ : StyleSpan)
        ∈ annotate (imageText alt url) := by
  intro alt url haltne hurlne halt hurl
  obtain ⟨a, alt2, rfl⟩ := List.exists_cons_of_ne_nil haltne
  obtain ⟨b, url2, rfl⟩ := List.exists_cons_of_ne_nil hurlne
  have hm := matchLinkAt_imageText a alt2 b url2 halt hurl
  have h0 : matchLinkAt (imageText (a :: alt2) (b :: url2)) 0 = none := by
    unfold matchLinkAt
    rw [if_neg]
    intro hcon
    have : (imageText (a :: alt2) (b :: url2)).getD 0 ' ' = '[' := hcon.2.1
    simp [imageText] at this
  have hlen : 1 < (imageText (a :: alt2) (b :: url2)).length := by
    simp [imageText]
  have hmem : (1, (imageText (a :: alt2) (b :: url2)).length)
      ∈ finditer matchLinkAt (imageText (a :: alt2) (b :: url2)) := by
    apply finditerAux_mem_intro _ 0 1 _ (by omega) (by omega) hlen hm
    intro r hr1 hr2
    have hr0 : r = 0 := by omega
    rw [hr0]
    exact h0
  have hlink : (⟨MDCat.link, 1, (imageText (a :: alt2) (b :: url2)).length⟩ : StyleSpan)
      ∈ linkSpans (imageText (a :: alt2) (b :: url2)) :=
    List.mem_map.mpr ⟨(1, (imageText (a :: alt2) (b :: url2)).length), hmem, rfl⟩
  unfold annotate
  simp only [List.mem_append]
  tauto

/-- Witness for C10 amended at alt `a`, url `b`. -/
theorem C10_link_inside_image_amended_witness :
    (⟨MDCat.link, 1, (imageText (("a").data) (("b").data)).length⟩ : StyleSpan)
      ∈ annotate (imageText (("a").data) (("b").data)) :=
  C10_link_inside_image_amended (("a").data) (("b").data)
    (by decide) (by decide) (by decide) (by decide)
